import Mathlib

/-!
Verification of the bojax/boax Bayesian-optimization core against its
natural-language specification.

The development shallowly embeds the Python sources over the real numbers:
JAX floating-point arrays become functions into `ℝ` (or `List ℝ`), the
special functions from `jax.scipy` (`erfc`, the normal pdf/cdf) are given
their exact mathematical meaning as integrals, and the PRNG key of
`jax.random` is abstracted as the deterministic stream of uniform variates
that JAX derives from a key.  Where IEEE-754 behaviour at zero divisors is
the point of a claim, a small extended-value type `RX` mirroring the IEEE
special values is used instead of `ℝ`.
-/

open MeasureTheory Set

noncomputable section

/-! ## Mathematical meaning of the external scipy special functions

`scipy.stats.norm.pdf`, `scipy.stats.norm.cdf` / `logcdf` / `logpdf` and
`scipy.special.erfc` are external library collaborators of the acquisition
code; they are embedded by their mathematical definitions. -/

/-- Standard normal density, the meaning of `scipy.stats.norm.pdf`. -/
def gaussPdf (x : ℝ) : ℝ := Real.exp (-(x ^ 2) / 2) / Real.sqrt (2 * Real.pi)

/-- Standard normal CDF, the meaning of `scipy.stats.norm.cdf`. -/
def normCdf (x : ℝ) : ℝ := ∫ t in Iic x, gaussPdf t

/-- Complementary error function, the meaning of `scipy.special.erfc`. -/
def erfc (x : ℝ) : ℝ := 2 / Real.sqrt Real.pi * ∫ s in Ioi x, Real.exp (-s ^ 2)

/-- Real-number semantics of `scipy.stats.norm.logcdf`. -/
def normLogcdf (x : ℝ) : ℝ := Real.log (normCdf x)

/-- Real-number semantics of `scipy.stats.norm.logpdf`. -/
def normLogpdf (x : ℝ) : ℝ := Real.log (gaussPdf x)

/-- Real-number semantics of `jnp.expm1`. -/
def expm1 (x : ℝ) : ℝ := Real.exp x - 1

/-- Real-number semantics of `jnp.log1p`. -/
def log1p (x : ℝ) : ℝ := Real.log (1 + x)

/-! ## bojax/_src/optimization/acquisitions/alias.py -/

/-- Embedding of `scale_improvement(loc, scale, best) = (loc - best) / scale`. -/
def scale_improvement (loc scale best : ℝ) : ℝ := (loc - best) / scale

/-- Per-point posterior scale `jnp.sqrt(jnp.diag(cov))` computed by every
acquisition in `alias.py`. -/
def postScale {ι : Type*} (cov : ι → ι → ℝ) (i : ι) : ℝ := Real.sqrt (cov i i)

/-- Embedding of the acquisition built by `log_probability_of_improvement`:
the posterior collaborator is represented by its outputs `loc` and `cov` on
the candidate batch, indexed by `ι`. -/
def log_probability_of_improvement {ι : Type*} (best : ℝ) (loc : ι → ℝ)
    (cov : ι → ι → ℝ) (i : ι) : ℝ :=
  normLogcdf (scale_improvement (loc i) (postScale cov i) best)

/-- Constant `_log2 = math.log(2)` from `log_expected_improvement`. -/
def log2c : ℝ := Real.log 2

/-- Constant `_neg_inv_sqrt2 = -(2 ** -0.5)` from `log_expected_improvement`. -/
def negInvSqrt2 : ℝ := -(1 / Real.sqrt 2)

/-- Constant `_log_sqrt_pi_div_2 = math.log(math.pi / 2) / 2`. -/
def logSqrtPiDiv2 : ℝ := Real.log (Real.pi / 2) / 2

/-- Embedding of the inner helper
`log1mexp(x) = where(-log2 < x, log(expm1(-x)), log1p(exp(-x)))`. -/
def log1mexp (x : ℝ) : ℝ :=
  if -log2c < x then Real.log (expm1 (-x)) else log1p (Real.exp (-x))

/-- Embedding of `erfcx(x) = exp(x**2) * erfc(x)`. -/
def erfcx (x : ℝ) : ℝ := Real.exp (x ^ 2) * erfc x

/-- Embedding of
`log_ei_eps(x) = log1mexp(log(erfcx(-inv_sqrt2*x)*|x|) + log_sqrt_pi_div_2)`. -/
def log_ei_eps (x : ℝ) : ℝ :=
  log1mexp (Real.log (erfcx (negInvSqrt2 * x) * |x|) + logSqrtPiDiv2)

/-- Embedding of `log_ei_upper(x) = log(pdf(x) + x * cdf(x))`. -/
def log_ei_upper (x : ℝ) : ℝ := Real.log (gaussPdf x + x * normCdf x)

/-- Embedding of `log_ei_lower(x) = log(|x|) * -2`. -/
def log_ei_lower (x : ℝ) : ℝ := Real.log |x| * (-2)

/-- Embedding of the piecewise `log_ei` body, with the same clamping of the
argument (`x_upper`, `x_lower`, `x_eps`) and the same `where` selections as
the source. -/
def log_ei (x : ℝ) : ℝ :=
  let bound : ℝ := -1
  let x_upper : ℝ := if x < bound then bound else x
  let x_lower : ℝ := if bound < x then bound else x
  let x_eps : ℝ := if x < -1e6 then -1e6 else x_lower
  if bound < x then log_ei_upper x_upper
  else normLogpdf x + (if -1e6 < x then log_ei_eps x_eps else log_ei_lower x_lower)

/-- Embedding of the acquisition built by `log_expected_improvement`. -/
def log_expected_improvement {ι : Type*} (best : ℝ) (loc : ι → ℝ)
    (cov : ι → ι → ℝ) (i : ι) : ℝ :=
  log_ei (scale_improvement (loc i) (postScale cov i) best)

/-! ## bojax/_src/prediction/bijectors/alias.py -/

/-- Forward map of the bijector built by `scalar_affine(shift, scale)`:
`scale * value + shift` (scalar case of the broadcasted source). -/
def scalar_affine_forward (shift scale value : ℝ) : ℝ := scale * value + shift

/-- Inverse map of the bijector built by `scalar_affine(shift, scale)`:
`inv_scale * (value - shift)` with `inv_scale = 1 / scale`. -/
def scalar_affine_inverse (shift scale value : ℝ) : ℝ :=
  (1 / scale) * (value - shift)

end

/-- Claim C10: for every `scale ≠ 0` and every value `v`, the bijector built
by `scalar_affine(shift, scale)` satisfies `inverse (forward v) = v` and
`forward (inverse v) = v`. -/
theorem C10_scalar_affine_round_trip (shift scale v : ℝ) (h : scale ≠ 0) :
    scalar_affine_inverse shift scale (scalar_affine_forward shift scale v) = v ∧
    scalar_affine_forward shift scale (scalar_affine_inverse shift scale v) = v := by
  constructor
  · unfold scalar_affine_forward scalar_affine_inverse
    field_simp
  · unfold scalar_affine_forward scalar_affine_inverse
    field_simp

/-- Witness for C10 at `shift = 3`, `scale = 2`, `v = 5`. -/
theorem C10_scalar_affine_round_trip_witness :
    scalar_affine_inverse 3 2 (scalar_affine_forward 3 2 5) = 5 ∧
    scalar_affine_forward 3 2 (scalar_affine_inverse 3 2 5) = 5 :=
  C10_scalar_affine_round_trip 3 2 5 (by norm_num)

/-- Claim C6: for every candidate with positive scale, the acquisition built
by `log_probability_of_improvement(best, process)` returns exactly
`log (Φ ((loc x - best) / scale x))` with `scale x = sqrt (diag (cov x))`,
the standard normal CDF evaluated in log space. -/
theorem C6_log_pi_formula {ι : Type*} (best : ℝ) (loc : ι → ℝ)
    (cov : ι → ι → ℝ) (i : ι) (hpos : 0 < postScale cov i) :
    log_probability_of_improvement best loc cov i =
      Real.log (normCdf ((loc i - best) / Real.sqrt (cov i i))) := by
  unfold log_probability_of_improvement normLogcdf scale_improvement postScale
  rfl

/-- Witness for C6 on a one-candidate batch with unit posterior variance. -/
theorem C6_log_pi_formula_witness :
    0 < postScale (fun _ _ : Fin 1 => (1 : ℝ)) 0 ∧
    log_probability_of_improvement 0 (fun _ : Fin 1 => (1 : ℝ))
        (fun _ _ : Fin 1 => (1 : ℝ)) 0 =
      Real.log (normCdf (((1 : ℝ) - 0) / Real.sqrt 1)) := by
  constructor
  · unfold postScale
    rw [Real.sqrt_one]
    norm_num
  · exact C6_log_pi_formula 0 (fun _ : Fin 1 => (1 : ℝ))
      (fun _ _ : Fin 1 => (1 : ℝ)) 0
      (by unfold postScale; rw [Real.sqrt_one]; norm_num)

/-! ## IEEE-754 extended values for the zero-variance edge case (claim C9)

The acquisition code divides by `scale` with plain `jnp` arithmetic, so at
`scale = 0` the score is determined by IEEE-754 semantics of `x / 0` and by
`norm.logcdf` at the special values.  `RX` mirrors the relevant IEEE
values: finite numbers, the two infinities and NaN. -/

/-- Extended real values: finite, `+inf`, `-inf`, `NaN`. -/
inductive RX where
  | fin (v : ℝ) : RX
  | pinf : RX
  | ninf : RX
  | nan : RX

noncomputable section

/-- IEEE-754 division of a finite numerator by a finite denominator
(the denominator `0` is the positive zero produced by `jnp.sqrt`):
`a / 0 = ±inf` by the sign of `a`, and `0 / 0 = NaN`. -/
def ieeeDiv (a b : ℝ) : RX :=
  if b ≠ 0 then .fin (a / b)
  else if 0 < a then .pinf
  else if a < 0 then .ninf
  else .nan

/-- `scipy.stats.norm.logcdf` extended to the IEEE special values:
`logcdf (+inf) = log 1 = 0`, `logcdf (-inf) = -inf`, `logcdf NaN = NaN`. -/
def normLogcdfX : RX → RX
  | .fin z => .fin (normLogcdf z)
  | .pinf => .fin 0
  | .ninf => .ninf
  | .nan => .nan

/-- The `log_probability_of_improvement` acquisition evaluated with IEEE
extended-value semantics for the division by `scale`. -/
def log_probability_of_improvement_X {ι : Type*} (best : ℝ) (loc : ι → ℝ)
    (cov : ι → ι → ℝ) (i : ι) : RX :=
  normLogcdfX (ieeeDiv (loc i - best) (postScale cov i))

/-- One-candidate posterior mean used in concrete evaluations: value `1`. -/
def oneLoc : Fin 1 → ℝ := fun _ => 1

/-- One-candidate posterior mean equal to the incumbent: value `0`. -/
def tieLoc : Fin 1 → ℝ := fun _ => 0

/-- Degenerate one-candidate posterior covariance: identically `0`. -/
def zeroCov : Fin 1 → Fin 1 → ℝ := fun _ _ => 0

end

/-- Claim C9 (zero-variance limits, the part the code satisfies): with
`scale(x) = 0`, `log_probability_of_improvement` returns `0` when
`loc(x) > best` and `-inf` when `loc(x) < best`, the `z → ±∞` limits of
`log Φ(z)`, with no error and no NaN in these two cases. -/
theorem C9_zero_scale_limits {ι : Type*} (best : ℝ) (loc : ι → ℝ)
    (cov : ι → ι → ℝ) (i : ι) (hz : postScale cov i = 0) :
    (best < loc i → log_probability_of_improvement_X best loc cov i = RX.fin 0) ∧
    (loc i < best → log_probability_of_improvement_X best loc cov i = RX.ninf) := by
  unfold log_probability_of_improvement_X ieeeDiv
  rw [hz]
  constructor
  · intro h
    rw [if_neg (by simp), if_pos (by linarith)]
    rfl
  · intro h
    rw [if_neg (by simp), if_neg (by simp; linarith), if_pos (by linarith)]
    rfl

/-- Witness for C9 on the degenerate posterior `cov = 0` with `loc = 1`,
`best = 0`. -/
theorem C9_zero_scale_limits_witness :
    log_probability_of_improvement_X 0 oneLoc zeroCov 0 = RX.fin 0 :=
  (C9_zero_scale_limits 0 oneLoc zeroCov 0
      (by unfold postScale zeroCov; exact Real.sqrt_zero)).1
    (by unfold oneLoc; norm_num)

/-- Counterexample to the final clause of claim C9 ("no acquisition ever
returns NaN for finite, well-formed inputs"): at the zero-variance tie
`loc(x) = best`, `scale(x) = 0`, the code computes `z = 0 / 0 = NaN` and
`logcdf NaN = NaN`. -/
theorem C9_zero_scale_tie_is_nan :
    log_probability_of_improvement_X 0 tieLoc zeroCov 0 = RX.nan := by
  unfold log_probability_of_improvement_X ieeeDiv postScale zeroCov tieLoc
  rw [Real.sqrt_zero]
  norm_num
  rfl

/-! ## boax/optimization/optimizers/initializers/alias.py

A JAX PRNG key deterministically determines every uniform variate drawn
from it, so a key is abstracted as the stream `ℕ → ℝ` of uniforms in
`[0, 1)` that `jax.random.uniform` derives from it.  `jax.random.choice`
with probability weights `p` draws index `searchsorted(cumsum p, r)` with
`r = cumsum(p)[-1] * (1 - u)` for a fresh uniform `u`. -/

/-- A PRNG key, abstracted as its stream of uniform variates. -/
def PRNGKey : Type := ℕ → ℝ

noncomputable section

/-- Cumulative sums `jnp.cumsum p`. -/
def cumsum : List ℝ → List ℝ
  | [] => []
  | a :: t => a :: (cumsum t).map (a + ·)

/-- Semantics of `jnp.searchsorted` (side `left`) on a sorted list: the
first index whose entry is `≥ r`, or the length if there is none. -/
def searchsorted (cuml : List ℝ) (r : ℝ) : ℕ :=
  cuml.findIdx (fun c => decide (r ≤ c))

/-- Semantics of `jax.random.choice(key, pool, (n,), p)`: `n` draws with
replacement, the `j`-th using the fresh uniform `key j`. -/
def choice {α : Type*} [Inhabited α] (key : PRNGKey) (pool : List α) (n : ℕ)
    (p : List ℝ) : List α :=
  (List.range n).map fun j =>
    pool.getD (searchsorted (cumsum p) ((cumsum p).getLastD 0 * (1 - key j))) default

/-- Semantics of `jax.nn.standardize(y, axis=0)` (mean/biased variance over
the leading axis, epsilon `1e-5`). -/
def nn_standardize (y : List ℝ) (v : ℝ) : ℝ :=
  (v - y.sum / y.length) /
    Real.sqrt ((y.map fun w => (w - y.sum / y.length) ^ 2).sum / y.length + 1e-5)

/-- Embedding of the initializer built by `q_batch(eta)`. -/
def q_batch {α : Type*} [Inhabited α] (eta : ℝ) (key : PRNGKey) (x : List α)
    (y : List ℝ) (n : ℕ) : List α :=
  choice key x n (y.map fun v => Real.exp (eta * nn_standardize y v))

/-- Semantics of `jnp.max` on a nonempty score vector. -/
def listMax : List ℝ → ℝ
  | [] => 0
  | a :: t => t.foldl max a

/-- Number of scores passing the filter `y >= alpha * max_val` after `k`
iterations of the shrink body (`alpha` has been multiplied by `0.1` exactly
`k` times). -/
def qbnnCount (alpha0 : ℝ) (y : List ℝ) (k : ℕ) : ℕ :=
  y.countP fun v => decide (alpha0 * (0.1 : ℝ) ^ k * listMax y ≤ v)

/-- The `lax.while_loop` condition `sum(mask) < num_restarts` as seen after
`k` executions of the body. -/
def qbnnCond (alpha0 : ℝ) (y : List ℝ) (n : ℕ) (k : ℕ) : Prop :=
  qbnnCount alpha0 y k < n

/-- Negation of the loop condition: enough rows pass after `k` shrinks. -/
def qbnnStopped (alpha0 : ℝ) (y : List ℝ) (n : ℕ) (k : ℕ) : Prop :=
  n ≤ qbnnCount alpha0 y k

instance qbnnStoppedDec (alpha0 : ℝ) (y : List ℝ) (n : ℕ) :
    DecidablePred (qbnnStopped alpha0 y n) :=
  fun k => Nat.decLe n (qbnnCount alpha0 y k)

/-- The `lax.while_loop` in `q_batch_nonnegative` exits iff its condition
eventually fails; otherwise the traced loop runs forever. -/
def qbnnTerminates (alpha0 : ℝ) (y : List ℝ) (n : ℕ) : Prop :=
  ∃ k, qbnnStopped alpha0 y n k

open Classical in
/-- Final `alpha` of the shrink loop on terminating inputs (the loop state
when the condition first fails); the value on diverging inputs is junk, as
the source loop never returns there. -/
def qbnnFinalAlpha (alpha0 : ℝ) (y : List ℝ) (n : ℕ) : ℝ :=
  if h : qbnnTerminates alpha0 y n then alpha0 * (0.1 : ℝ) ^ Nat.find h else 0

/-- Embedding of the initializer built by `q_batch_nonnegative(eta, alpha)`:
filter `x`, `y` by the final mask, then draw by weighted `choice` with
weights `exp(eta * (y / max_val - 1))` on the passing rows. -/
def q_batch_nonnegative {α : Type*} [Inhabited α] (eta alpha0 : ℝ)
    (key : PRNGKey) (x : List α) (y : List ℝ) (n : ℕ) : List α :=
  let maxVal := listMax y
  let aF := qbnnFinalAlpha alpha0 y n
  let pairs := (x.zip y).filter fun pr => decide (aF * maxVal ≤ pr.2)
  choice key (pairs.map Prod.fst) n
    (pairs.map fun pr => Real.exp (eta * (pr.2 / maxVal - 1)))

/-- A concrete PRNG key whose uniform stream is constantly `0`. -/
def zeroKey : PRNGKey := fun _ => 0

end

lemma cumsum_length (l : List ℝ) : (cumsum l).length = l.length := by
  induction l with
  | nil => rfl
  | cons a t ih => simp [cumsum, ih]

lemma cumsum_nonneg {l : List ℝ} (h : ∀ w ∈ l, 0 ≤ w) :
    ∀ c ∈ cumsum l, 0 ≤ c := by
  induction l with
  | nil => simp [cumsum]
  | cons a t ih =>
    intro c hc
    have ha : 0 ≤ a := h a (by simp)
    simp only [cumsum, List.mem_cons, List.mem_map] at hc
    rcases hc with rfl | ⟨c0, hc0, rfl⟩
    · exact ha
    · have := ih (fun w hw => h w (by simp [hw])) c0 hc0
      positivity

lemma getLastD_mem {α : Type*} (l : List α) (d : α) (h : l ≠ []) :
    l.getLastD d ∈ l := by
  induction l generalizing d with
  | nil => exact absurd rfl h
  | cons a t ih =>
    rw [List.getLastD_cons]
    cases t with
    | nil => simp
    | cons b t2 => exact List.mem_cons_of_mem a (ih a (by simp))

lemma searchsorted_lt_length {cuml : List ℝ} {r c : ℝ} (hc : c ∈ cuml)
    (hrc : r ≤ c) : searchsorted cuml r < cuml.length :=
  List.findIdx_lt_length_of_exists ⟨c, hc, by simpa using hrc⟩

lemma choice_length {α : Type*} [Inhabited α] (key : PRNGKey) (pool : List α)
    (n : ℕ) (p : List ℝ) : (choice key pool n p).length = n := by
  simp [choice]

lemma choice_mem {α : Type*} [Inhabited α] {key : PRNGKey} {pool : List α}
    {n : ℕ} {p : List ℝ} (hlen : p.length = pool.length)
    (hpos : ∀ w ∈ p, 0 ≤ w) (hne : pool ≠ [])
    (hkey : ∀ j, 0 ≤ key j ∧ key j ≤ 1) :
    ∀ r ∈ choice key pool n p, r ∈ pool := by
  intro r hr
  simp only [choice, List.mem_map, List.mem_range] at hr
  obtain ⟨j, -, rfl⟩ := hr
  have hpne : p ≠ [] := by
    intro h0
    apply hne
    rw [← List.length_eq_zero, ← hlen, h0]
    rfl
  have hcne : cumsum p ≠ [] := by
    intro h0
    apply hpne
    rw [← List.length_eq_zero, ← cumsum_length, h0]
    rfl
  have hLmem : (cumsum p).getLastD 0 ∈ cumsum p := getLastD_mem _ _ hcne
  have hL0 : 0 ≤ (cumsum p).getLastD 0 := cumsum_nonneg hpos _ hLmem
  have hrle : (cumsum p).getLastD 0 * (1 - key j) ≤ (cumsum p).getLastD 0 := by
    nlinarith [(hkey j).1, (hkey j).2]
  have hidx : searchsorted (cumsum p) ((cumsum p).getLastD 0 * (1 - key j)) <
      pool.length := by
    have := searchsorted_lt_length hLmem hrle
    rwa [cumsum_length, hlen] at this
  rw [List.getD_eq_getElem?_getD, List.getElem?_eq_getElem hidx]
  exact List.getElem_mem hidx

/-- Claim C2 (refuting theorem): on scores `y = [-1]` with `num_restarts = 1`
the `lax.while_loop` condition of `q_batch_nonnegative` still holds after
every number `k` of shrink iterations — there is no iteration cap and no
fallback, so the loop never exits. -/
theorem C2_shrink_loop_unbounded : ∀ k : ℕ, qbnnCond (1e-4) [(-1 : ℝ)] 1 k := by
  intro k
  unfold qbnnCond qbnnCount listMax
  have h01 : (0.1 : ℝ) ^ k ≤ 1 := pow_le_one₀ (by norm_num) (by norm_num)
  have hfail : ¬((1e-4 : ℝ) * (0.1 : ℝ) ^ k * List.foldl max (-1) [] ≤ -1) := by
    simp only [List.foldl_nil]
    nlinarith
  simp only [List.countP_cons, List.countP_nil, hfail]
  simp

/-- Claim C7: the initializer built by `q_batch(eta)` draws its rows by
weighted `choice` over the pool with weight `exp(eta * standardize(y)[i])`;
at `eta = 0` every weight equals `1` (uniform over pool rows); it returns
`num_restarts` rows, each a pool row. -/
theorem C7_q_batch_weights {α : Type*} [Inhabited α] (eta : ℝ) (key : PRNGKey)
    (x : List α) (y : List ℝ) (n : ℕ) (hne : x ≠ [])
    (hlen : y.length = x.length) (hkey : ∀ j, 0 ≤ key j ∧ key j < 1) :
    q_batch eta key x y n =
      choice key x n (y.map fun v => Real.exp (eta * nn_standardize y v)) ∧
    (y.map fun v => Real.exp ((0 : ℝ) * nn_standardize y v)) =
      List.replicate y.length 1 ∧
    (q_batch eta key x y n).length = n ∧
    ∀ r ∈ q_batch eta key x y n, r ∈ x := by
  refine ⟨rfl, ?_, choice_length _ _ _ _, ?_⟩
  · simp
  · apply choice_mem (by simpa using hlen)
    · intro w hw
      simp only [List.mem_map] at hw
      obtain ⟨v, -, rfl⟩ := hw
      exact (Real.exp_pos _).le
    · exact hne
    · exact fun j => ⟨(hkey j).1, (hkey j).2.le⟩

/-- Witness for C7 with pool `[5]`, scores `[1]`, two restarts, zero key. -/
theorem C7_q_batch_weights_witness :
    q_batch 1 zeroKey [(5 : ℕ)] [(1 : ℝ)] 2 =
      choice zeroKey [(5 : ℕ)] 2
        ([(1 : ℝ)].map fun v => Real.exp (1 * nn_standardize [(1 : ℝ)] v)) ∧
    ([(1 : ℝ)].map fun v => Real.exp ((0 : ℝ) * nn_standardize [(1 : ℝ)] v)) =
      List.replicate ([(1 : ℝ)]).length 1 ∧
    (q_batch 1 zeroKey [(5 : ℕ)] [(1 : ℝ)] 2).length = 2 ∧
    ∀ r ∈ q_batch 1 zeroKey [(5 : ℕ)] [(1 : ℝ)] 2, r ∈ [(5 : ℕ)] :=
  C7_q_batch_weights 1 zeroKey [5] [1] 2 (by simp) (by simp)
    (fun j => by constructor <;> norm_num [zeroKey])

/-- Claim C8: both initializers are deterministic — two calls with an equal
key (uniform stream) and equal pool, scores and restart count return equal
results; the embedding is a pure function of these inputs, with no hidden
generator state. -/
theorem C8_initializers_deterministic {α : Type*} [Inhabited α]
    (eta alpha0 : ℝ) (k1 k2 : PRNGKey) (x1 x2 : List α) (y1 y2 : List ℝ)
    (n1 n2 : ℕ) (hk : k1 = k2) (hx : x1 = x2) (hy : y1 = y2) (hn : n1 = n2) :
    q_batch eta k1 x1 y1 n1 = q_batch eta k2 x2 y2 n2 ∧
    q_batch_nonnegative eta alpha0 k1 x1 y1 n1 =
      q_batch_nonnegative eta alpha0 k2 x2 y2 n2 := by
  subst hk hx hy hn
  exact ⟨rfl, rfl⟩

/-- Witness for C8 on concrete equal inputs. -/
theorem C8_initializers_deterministic_witness :
    q_batch 1 zeroKey [(5 : ℕ)] [(1 : ℝ)] 1 =
      q_batch 1 zeroKey [(5 : ℕ)] [(1 : ℝ)] 1 ∧
    q_batch_nonnegative 1 (1e-4) zeroKey [(5 : ℕ)] [(1 : ℝ)] 1 =
      q_batch_nonnegative 1 (1e-4) zeroKey [(5 : ℕ)] [(1 : ℝ)] 1 :=
  C8_initializers_deterministic 1 (1e-4) zeroKey zeroKey [5] [5] [1] [1] 1 1
    rfl rfl rfl rfl

lemma filter_zip_length {α : Type*} (p : ℝ → Bool) :
    ∀ (x : List α) (y : List ℝ), x.length = y.length →
      ((x.zip y).filter fun pr => p pr.2).length = y.countP p := by
  intro x
  induction x with
  | nil =>
    intro y hy
    have : y = [] := by
      rw [← List.length_eq_zero, ← hy]
      rfl
    subst this
    rfl
  | cons a t ih =>
    intro y hy
    cases y with
    | nil => simp at hy
    | cons b u =>
      have hlen : t.length = u.length := by simpa using hy
      by_cases hb : p b
      · simp [List.zip_cons_cons, List.filter_cons, List.countP_cons, hb,
          ih u hlen]
      · simp [List.zip_cons_cons, List.filter_cons, List.countP_cons, hb,
          ih u hlen]

lemma qbnnFinalAlpha_count {alpha0 : ℝ} {y : List ℝ} {n : ℕ}
    (h : qbnnTerminates alpha0 y n) :
    n ≤ y.countP fun v => decide (qbnnFinalAlpha alpha0 y n * listMax y ≤ v) := by
  unfold qbnnFinalAlpha
  rw [dif_pos h]
  exact Nat.find_spec h

/-- Claim C3: on every input where the shrink loop terminates, the
initializer built by `q_batch_nonnegative(eta, alpha)` returns exactly
`num_restarts` rows; each returned row is a pool row whose score passes the
final filter threshold `alpha_final * max(scores)`; and the rows are drawn
with replacement by weighted `choice` restricted to the passing rows with
weight `exp(eta * (score / max_score - 1))`. -/
theorem C3_q_batch_nonnegative_rows {α : Type*} [Inhabited α] (eta alpha0 : ℝ)
    (key : PRNGKey) (x : List α) (y : List ℝ) (n : ℕ)
    (hterm : qbnnTerminates alpha0 y n) (hlen : x.length = y.length)
    (hn : 1 ≤ n) (hkey : ∀ j, 0 ≤ key j ∧ key j < 1) :
    (q_batch_nonnegative eta alpha0 key x y n).length = n ∧
    (∀ r ∈ q_batch_nonnegative eta alpha0 key x y n,
      ∃ pr ∈ x.zip y, r = pr.1 ∧
        qbnnFinalAlpha alpha0 y n * listMax y ≤ pr.2) ∧
    q_batch_nonnegative eta alpha0 key x y n =
      choice key
        (((x.zip y).filter fun pr =>
            decide (qbnnFinalAlpha alpha0 y n * listMax y ≤ pr.2)).map
          Prod.fst)
        n
        (((x.zip y).filter fun pr =>
            decide (qbnnFinalAlpha alpha0 y n * listMax y ≤ pr.2)).map
          fun pr => Real.exp (eta * (pr.2 / listMax y - 1))) := by
  have hres : q_batch_nonnegative eta alpha0 key x y n =
      choice key
        (((x.zip y).filter fun pr =>
            decide (qbnnFinalAlpha alpha0 y n * listMax y ≤ pr.2)).map
          Prod.fst)
        n
        (((x.zip y).filter fun pr =>
            decide (qbnnFinalAlpha alpha0 y n * listMax y ≤ pr.2)).map
          fun pr => Real.exp (eta * (pr.2 / listMax y - 1))) := rfl
  have hcount : 1 ≤ ((x.zip y).filter fun pr =>
      decide (qbnnFinalAlpha alpha0 y n * listMax y ≤ pr.2)).length := by
    have hc2 := filter_zip_length
      (fun v => decide (qbnnFinalAlpha alpha0 y n * listMax y ≤ v)) x y hlen
    exact le_trans (le_trans hn (qbnnFinalAlpha_count hterm)) (le_of_eq hc2.symm)
  have hpoolne : (((x.zip y).filter fun pr =>
      decide (qbnnFinalAlpha alpha0 y n * listMax y ≤ pr.2)).map
        Prod.fst) ≠ [] := by
    intro h0
    have := congrArg List.length h0
    simp only [List.length_map, List.length_nil] at this
    omega
  refine ⟨by rw [hres]; exact choice_length _ _ _ _, ?_, hres⟩
  intro r hr
  rw [hres] at hr
  have hmem : r ∈ (((x.zip y).filter fun pr =>
      decide (qbnnFinalAlpha alpha0 y n * listMax y ≤ pr.2)).map
        Prod.fst) := by
    refine choice_mem ?_ ?_ hpoolne (fun j => ⟨(hkey j).1, (hkey j).2.le⟩) r hr
    · simp [List.length_map]
    · intro w hw
      simp only [List.mem_map] at hw
      obtain ⟨pr, -, rfl⟩ := hw
      exact (Real.exp_pos _).le
  simp only [List.mem_map] at hmem
  obtain ⟨pr, hpr, rfl⟩ := hmem
  rw [List.mem_filter] at hpr
  exact ⟨pr, hpr.1, rfl, of_decide_eq_true hpr.2⟩

/-- Witness for C3 with pool `[7]`, scores `[2]`, one restart, zero key:
the loop stops immediately (`1` row already passes at `alpha = 1e-4`). -/
theorem C3_q_batch_nonnegative_rows_witness :
    (q_batch_nonnegative 1 (1e-4) zeroKey [(7 : ℕ)] [(2 : ℝ)] 1).length = 1 ∧
    (∀ r ∈ q_batch_nonnegative 1 (1e-4) zeroKey [(7 : ℕ)] [(2 : ℝ)] 1,
      ∃ pr ∈ [(7 : ℕ)].zip [(2 : ℝ)], r = pr.1 ∧
        qbnnFinalAlpha (1e-4) [(2 : ℝ)] 1 * listMax [(2 : ℝ)] ≤ pr.2) ∧
    q_batch_nonnegative 1 (1e-4) zeroKey [(7 : ℕ)] [(2 : ℝ)] 1 =
      choice zeroKey
        ((([(7 : ℕ)].zip [(2 : ℝ)]).filter fun pr =>
            decide (qbnnFinalAlpha (1e-4) [(2 : ℝ)] 1 * listMax [(2 : ℝ)] ≤
              pr.2)).map Prod.fst)
        1
        ((([(7 : ℕ)].zip [(2 : ℝ)]).filter fun pr =>
            decide (qbnnFinalAlpha (1e-4) [(2 : ℝ)] 1 * listMax [(2 : ℝ)] ≤
              pr.2)).map
          fun pr => Real.exp (1 * (pr.2 / listMax [(2 : ℝ)] - 1))) := by
  have hstop : qbnnStopped (1e-4) [(2 : ℝ)] 1 0 := by
    have hle : ((1e-4 : ℝ) * (0.1 : ℝ) ^ (0 : ℕ) * listMax [(2 : ℝ)] ≤ 2) := by
      unfold listMax
      norm_num
    unfold qbnnStopped qbnnCount
    rw [List.countP_cons, List.countP_nil, decide_eq_true hle]
    norm_num
  exact C3_q_batch_nonnegative_rows 1 (1e-4) zeroKey [7] [2] 1 ⟨0, hstop⟩
    (by simp) le_rfl (fun j => by constructor <;> norm_num [zeroKey])

/-! ## Gaussian tail estimates for the log-EI branch analysis (claims C1, C4)

Both claims about the middle regime of `log_expected_improvement` reduce to
two-sided bounds on `w0 = erfcx(1/sqrt 2) * sqrt(pi/2)`: the quantity whose
logarithm is the argument the code feeds to `log1mexp` at `z = -1`.  The
key facts are `1/2 < w0 < 9/10`, obtained from elementary bounds on the
Gaussian tail integral over `(1/sqrt 2, ∞)`. -/

noncomputable section

/-- The point `1 / sqrt 2`, written as `sqrt 2 / 2`. -/
def t0 : ℝ := Real.sqrt 2 / 2

/-- Gaussian tail integral over `(1/sqrt 2, ∞)`. -/
def I0 : ℝ := ∫ s in Ioi t0, Real.exp (-s ^ 2)

/-- The `log1mexp` argument underlying the middle branch at `z = -1`. -/
def w0 : ℝ := erfcx t0 * Real.sqrt (Real.pi / 2)

end

lemma sqrt2_pos : 0 < Real.sqrt 2 := Real.sqrt_pos.mpr (by norm_num)

lemma sqrt2_sq : Real.sqrt 2 ^ 2 = 2 := Real.sq_sqrt (by norm_num)

lemma t0_pos : 0 < t0 := by
  unfold t0
  positivity

lemma t0_sq : t0 ^ 2 = 1 / 2 := by
  unfold t0
  rw [div_pow, sqrt2_sq]
  norm_num

lemma inv_sqrt2_eq_t0 : 1 / Real.sqrt 2 = t0 := by
  unfold t0
  rw [div_eq_div_iff (ne_of_gt sqrt2_pos) (by norm_num : (2 : ℝ) ≠ 0)]
  nlinarith [sqrt2_sq]

lemma neg_sq_decomp (s : ℝ) :
    -s ^ 2 = -(1 / 2) - Real.sqrt 2 * (s - t0) - (s - t0) ^ 2 := by
  unfold t0
  have h := sqrt2_sq
  nlinarith [h]

lemma exp_neg_sq_integrableOn (t : ℝ) :
    IntegrableOn (fun s : ℝ => Real.exp (-s ^ 2)) (Ioi t) := by
  have h : Integrable (fun x : ℝ => Real.exp (-1 * x ^ 2)) :=
    integrable_exp_neg_mul_sq one_pos
  have h2 : Integrable (fun x : ℝ => Real.exp (-x ^ 2)) := by
    simpa using h
  exact h2.integrableOn

lemma exp_lin_deriv (c b s : ℝ) :
    HasDerivAt (fun u : ℝ => Real.exp (c - b * (u - t0))) 
      (Real.exp (c - b * (s - t0)) * (-b)) s := by
  have h1 : HasDerivAt (fun u : ℝ => c - b * (u - t0)) (-b) s := by
    have h2 : HasDerivAt (fun u : ℝ => u - t0) 1 s := (hasDerivAt_id s).sub_const t0
    have h3 : HasDerivAt (fun u : ℝ => b * (u - t0)) (b * 1) s := h2.const_mul b
    simpa using h3.const_sub c
  exact h1.exp

lemma lower_anti_deriv (s : ℝ) :
    HasDerivAt (fun u : ℝ =>
      Real.exp (-(1 / 2) - Real.sqrt 2 * (u - t0)) *
        ((u - t0) + (u - t0) ^ 2 * t0))
      (Real.exp (-(1 / 2) - Real.sqrt 2 * (s - t0)) * (1 - (s - t0) ^ 2)) s := by
  have he := exp_lin_deriv (-(1 / 2)) (Real.sqrt 2) s
  have hu : HasDerivAt (fun u : ℝ => u - t0) 1 s := (hasDerivAt_id s).sub_const t0
  have hp : HasDerivAt (fun u : ℝ => (u - t0) + (u - t0) ^ 2 * t0)
      (1 + 2 * (s - t0) * t0) s := by
    have hsq : HasDerivAt (fun u : ℝ => (u - t0) ^ 2) (2 * (s - t0) ^ 1 * 1) s :=
      hu.pow 2
    have hsq2 : HasDerivAt (fun u : ℝ => (u - t0) ^ 2 * t0)
        (2 * (s - t0) ^ 1 * 1 * t0) s := hsq.mul_const t0
    have := hu.add hsq2
    simpa using this.congr_deriv (by ring)
  have hmul := he.mul hp
  have harith : Real.exp (-(1 / 2) - Real.sqrt 2 * (s - t0)) * (-Real.sqrt 2) *
        ((s - t0) + (s - t0) ^ 2 * t0) +
      Real.exp (-(1 / 2) - Real.sqrt 2 * (s - t0)) * (1 + 2 * (s - t0) * t0) =
      Real.exp (-(1 / 2) - Real.sqrt 2 * (s - t0)) * (1 - (s - t0) ^ 2) := by
    have h2 : Real.sqrt 2 * t0 = 1 := by
      unfold t0
      nlinarith [sqrt2_sq]
    have h3 : (2 : ℝ) * t0 = Real.sqrt 2 := by
      unfold t0
      ring
    linear_combination (Real.exp (-(1 / 2) - Real.sqrt 2 * (s - t0)) *
        (s - t0)) * h3 -
      (Real.exp (-(1 / 2) - Real.sqrt 2 * (s - t0)) * (s - t0) ^ 2) * h2
  exact hmul.congr_deriv harith

lemma exp_neg_sq_continuous : Continuous fun s : ℝ => Real.exp (-s ^ 2) := by
  fun_prop

lemma lower_cmp_continuous : Continuous fun s : ℝ =>
    Real.exp (-(1 / 2) - Real.sqrt 2 * (s - t0)) * (1 - (s - t0) ^ 2) := by
  fun_prop

lemma lower_interval_value :
    ∫ s in t0..(t0 + 1),
      Real.exp (-(1 / 2) - Real.sqrt 2 * (s - t0)) * (1 - (s - t0) ^ 2) =
    Real.exp (-(1 / 2) - Real.sqrt 2) * (1 + t0) := by
  rw [intervalIntegral.integral_eq_sub_of_hasDerivAt
    (f := fun u : ℝ => Real.exp (-(1 / 2) - Real.sqrt 2 * (u - t0)) *
      ((u - t0) + (u - t0) ^ 2 * t0))
    (fun s _ => lower_anti_deriv s)
    (lower_cmp_continuous.intervalIntegrable _ _)]
  have e1 : t0 + 1 - t0 = (1 : ℝ) := by ring
  simp only [e1, sub_self]
  norm_num

lemma lower_pointwise (s : ℝ) :
    Real.exp (-(1 / 2) - Real.sqrt 2 * (s - t0)) * (1 - (s - t0) ^ 2) ≤
      Real.exp (-s ^ 2) := by
  rw [neg_sq_decomp s, show -(1 / 2) - Real.sqrt 2 * (s - t0) - (s - t0) ^ 2 =
    (-(1 / 2) - Real.sqrt 2 * (s - t0)) + -((s - t0) ^ 2) from by ring,
    Real.exp_add]
  exact mul_le_mul_of_nonneg_left
    (by linarith [Real.add_one_le_exp (-((s - t0) ^ 2))]) (Real.exp_pos _).le

lemma I0_lower : Real.exp (-(1 / 2) - Real.sqrt 2) * (1 + t0) ≤ I0 := by
  have h1 : ∫ s in t0..(t0 + 1),
      Real.exp (-(1 / 2) - Real.sqrt 2 * (s - t0)) * (1 - (s - t0) ^ 2) ≤
      ∫ s in t0..(t0 + 1), Real.exp (-s ^ 2) :=
    intervalIntegral.integral_mono_on (by linarith)
      (lower_cmp_continuous.intervalIntegrable _ _)
      (exp_neg_sq_continuous.intervalIntegrable _ _)
      (fun s _ => lower_pointwise s)
  have h2 : ∫ s in t0..(t0 + 1), Real.exp (-s ^ 2) ≤ I0 := by
    rw [intervalIntegral.integral_of_le (by linarith : t0 ≤ t0 + 1)]
    exact setIntegral_mono_set (exp_neg_sq_integrableOn t0)
      (ae_of_all _ fun s => (Real.exp_pos _).le)
      Set.Ioc_subset_Ioi_self.eventuallyLE
  calc Real.exp (-(1 / 2) - Real.sqrt 2) * (1 + t0)
      = ∫ s in t0..(t0 + 1),
          Real.exp (-(1 / 2) - Real.sqrt 2 * (s - t0)) * (1 - (s - t0) ^ 2) :=
        lower_interval_value.symm
    _ ≤ ∫ s in t0..(t0 + 1), Real.exp (-s ^ 2) := h1
    _ ≤ I0 := h2

lemma I0_pos : 0 < I0 := by
  have h1 : 0 < Real.exp (-(1 / 2) - Real.sqrt 2) * (1 + t0) :=
    mul_pos (Real.exp_pos _) (by linarith [t0_pos])
  linarith [I0_lower]

lemma upper_interval_value :
    ∫ s in t0..(t0 + 1), Real.exp (-(1 / 2) - Real.sqrt 2 * (s - t0)) =
      (Real.exp (-(1 / 2)) - Real.exp (-(1 / 2) - Real.sqrt 2)) / Real.sqrt 2 := by
  have hderiv : ∀ s ∈ uIcc t0 (t0 + 1),
      HasDerivAt (fun u : ℝ =>
        -Real.exp (-(1 / 2) - Real.sqrt 2 * (u - t0)) / Real.sqrt 2)
        (Real.exp (-(1 / 2) - Real.sqrt 2 * (s - t0))) s := by
    intro s _
    have h := ((exp_lin_deriv (-(1 / 2)) (Real.sqrt 2) s).neg).div_const
      (Real.sqrt 2)
    refine h.congr_deriv ?_
    field_simp
  rw [intervalIntegral.integral_eq_sub_of_hasDerivAt hderiv
    ((by fun_prop : Continuous fun s : ℝ =>
      Real.exp (-(1 / 2) - Real.sqrt 2 * (s - t0))).intervalIntegrable _ _)]
  have e1 : t0 + 1 - t0 = (1 : ℝ) := by ring
  simp only [e1, sub_self]
  rw [mul_one, mul_zero, sub_zero]
  ring

lemma upper_piece1 :
    ∫ s in Ioc t0 (t0 + 1), Real.exp (-s ^ 2) ≤
      (Real.exp (-(1 / 2)) - Real.exp (-(1 / 2) - Real.sqrt 2)) / Real.sqrt 2 := by
  have hmono : ∫ s in Ioc t0 (t0 + 1), Real.exp (-s ^ 2) ≤
      ∫ s in Ioc t0 (t0 + 1), Real.exp (-(1 / 2) - Real.sqrt 2 * (s - t0)) := by
    refine setIntegral_mono_on
      ((exp_neg_sq_integrableOn t0).mono_set Set.Ioc_subset_Ioi_self)
      (((by fun_prop : Continuous fun s : ℝ =>
          Real.exp (-(1 / 2) - Real.sqrt 2 * (s - t0))).continuousOn.integrableOn_compact
            isCompact_Icc).mono_set Set.Ioc_subset_Icc_self)
      measurableSet_Ioc ?_
    intro s hs
    rw [Real.exp_le_exp, neg_sq_decomp s]
    nlinarith [sq_nonneg (s - t0)]
  have hval : ∫ s in Ioc t0 (t0 + 1),
      Real.exp (-(1 / 2) - Real.sqrt 2 * (s - t0)) =
      (Real.exp (-(1 / 2)) - Real.exp (-(1 / 2) - Real.sqrt 2)) / Real.sqrt 2 := by
    rw [← intervalIntegral.integral_of_le (by linarith : t0 ≤ t0 + 1)]
    exact upper_interval_value
  exact hmono.trans (le_of_eq hval)

lemma tail_cmp_integrableOn :
    IntegrableOn
      (fun s : ℝ => Real.exp (-(1 / 2) - (Real.sqrt 2 + 1) * (s - t0)))
      (Ioi (t0 + 1)) := by
  have hfe : (fun s : ℝ => Real.exp (-(1 / 2) - (Real.sqrt 2 + 1) * (s - t0))) =
      fun s : ℝ => Real.exp (-(1 / 2) + (Real.sqrt 2 + 1) * t0) *
        Real.exp (-(Real.sqrt 2 + 1) * s) := by
    funext s
    rw [← Real.exp_add]
    ring_nf
  rw [hfe]
  exact (exp_neg_integrableOn_Ioi _ (by linarith [sqrt2_pos])).const_mul _

lemma upper_tail_value :
    ∫ s in Ioi (t0 + 1),
      Real.exp (-(1 / 2) - (Real.sqrt 2 + 1) * (s - t0)) =
      Real.exp (-(1 / 2) - (Real.sqrt 2 + 1)) / (Real.sqrt 2 + 1) := by
  have hb : (0 : ℝ) < Real.sqrt 2 + 1 := by linarith [sqrt2_pos]
  have hderiv : ∀ s ∈ Ici (t0 + 1),
      HasDerivAt (fun u : ℝ =>
        -Real.exp (-(1 / 2) - (Real.sqrt 2 + 1) * (u - t0)) / (Real.sqrt 2 + 1))
        (Real.exp (-(1 / 2) - (Real.sqrt 2 + 1) * (s - t0))) s := by
    intro s _
    have h := ((exp_lin_deriv (-(1 / 2)) (Real.sqrt 2 + 1) s).neg).div_const
      (Real.sqrt 2 + 1)
    refine h.congr_deriv ?_
    field_simp
    ring
  have htendsto : Filter.Tendsto (fun u : ℝ =>
      -Real.exp (-(1 / 2) - (Real.sqrt 2 + 1) * (u - t0)) / (Real.sqrt 2 + 1))
      Filter.atTop (nhds 0) := by
    have h1 : Filter.Tendsto (fun u : ℝ => -(1 / 2) - (Real.sqrt 2 + 1) * (u - t0))
        Filter.atTop Filter.atBot := by
      apply Filter.tendsto_atBot_add_const_left
      apply Filter.tendsto_neg_atTop_atBot.comp
      exact (Filter.tendsto_atTop_add_const_right _ (-t0) Filter.tendsto_id).const_mul_atTop hb
    have h2 := Real.tendsto_exp_atBot.comp h1
    have h3 := (h2.neg).div_const (Real.sqrt 2 + 1)
    simpa using h3
  have hres := integral_Ioi_of_hasDerivAt_of_tendsto' hderiv
    tail_cmp_integrableOn htendsto
  rw [hres]
  have e1 : t0 + 1 - t0 = (1 : ℝ) := by ring
  rw [e1]
  ring

lemma upper_piece2 :
    ∫ s in Ioi (t0 + 1), Real.exp (-s ^ 2) ≤
      Real.exp (-(1 / 2) - (Real.sqrt 2 + 1)) / (Real.sqrt 2 + 1) := by
  have hmono : ∫ s in Ioi (t0 + 1), Real.exp (-s ^ 2) ≤
      ∫ s in Ioi (t0 + 1),
        Real.exp (-(1 / 2) - (Real.sqrt 2 + 1) * (s - t0)) := by
    refine setIntegral_mono_on (exp_neg_sq_integrableOn (t0 + 1))
      tail_cmp_integrableOn measurableSet_Ioi ?_
    intro s hs
    have hu : 1 ≤ s - t0 := by
      have : t0 + 1 < s := hs
      linarith
    rw [Real.exp_le_exp, neg_sq_decomp s]
    nlinarith
  exact hmono.trans (le_of_eq upper_tail_value)

lemma I0_split :
    I0 = (∫ s in Ioc t0 (t0 + 1), Real.exp (-s ^ 2)) +
      ∫ s in Ioi (t0 + 1), Real.exp (-s ^ 2) := by
  unfold I0
  rw [← Set.Ioc_union_Ioi_eq_Ioi (by linarith : t0 ≤ t0 + 1)]
  exact setIntegral_union (Set.Ioc_disjoint_Ioi le_rfl) measurableSet_Ioi
    ((exp_neg_sq_integrableOn t0).mono_set Set.Ioc_subset_Ioi_self)
    (exp_neg_sq_integrableOn (t0 + 1))

lemma I0_upper :
    I0 ≤ (Real.exp (-(1 / 2)) - Real.exp (-(1 / 2) - Real.sqrt 2)) / Real.sqrt 2 +
      Real.exp (-(1 / 2) - (Real.sqrt 2 + 1)) / (Real.sqrt 2 + 1) := by
  rw [I0_split]
  exact add_le_add upper_piece1 upper_piece2

lemma sqrt_pi_pos : 0 < Real.sqrt Real.pi := Real.sqrt_pos.mpr Real.pi_pos

lemma sqrt2_mul_t0 : Real.sqrt 2 * t0 = 1 := by
  unfold t0
  nlinarith [sqrt2_sq]

lemma w0_eq : w0 = Real.sqrt 2 * Real.exp ((1 : ℝ) / 2) * I0 := by
  unfold w0 erfcx
  rw [t0_sq, show erfc t0 = 2 / Real.sqrt Real.pi * I0 from rfl,
    Real.sqrt_div Real.pi_pos.le]
  have key : 2 / Real.sqrt Real.pi * (Real.sqrt Real.pi / Real.sqrt 2) =
      Real.sqrt 2 := by
    have h2 := Real.mul_self_sqrt (by norm_num : (0 : ℝ) ≤ 2)
    have hπ : Real.sqrt Real.pi ≠ 0 := ne_of_gt sqrt_pi_pos
    have hs2 : Real.sqrt 2 ≠ 0 := ne_of_gt sqrt2_pos
    field_simp
  calc Real.exp ((1 : ℝ) / 2) * (2 / Real.sqrt Real.pi * I0) *
        (Real.sqrt Real.pi / Real.sqrt 2)
      = 2 / Real.sqrt Real.pi * (Real.sqrt Real.pi / Real.sqrt 2) *
          (Real.exp ((1 : ℝ) / 2) * I0) := by ring
    _ = Real.sqrt 2 * (Real.exp ((1 : ℝ) / 2) * I0) := by rw [key]
    _ = Real.sqrt 2 * Real.exp ((1 : ℝ) / 2) * I0 := by ring

lemma sqrt2_le_32 : Real.sqrt 2 ≤ 3 / 2 := by
  rw [show (3 / 2 : ℝ) = Real.sqrt ((3 / 2) ^ 2) from
    (Real.sqrt_sq (by norm_num)).symm]
  exact Real.sqrt_le_sqrt (by norm_num)

lemma sqrt2_lt_d5 : Real.sqrt 2 < 1.41422 := by
  rw [show (1.41422 : ℝ) = Real.sqrt (1.41422 ^ 2) from
    (Real.sqrt_sq (by norm_num)).symm]
  exact Real.sqrt_lt_sqrt (by norm_num) (by norm_num)

lemma sqrt2_gt_d5 : 1.41421 < Real.sqrt 2 := by
  rw [show (1.41421 : ℝ) = Real.sqrt (1.41421 ^ 2) from
    (Real.sqrt_sq (by norm_num)).symm]
  exact Real.sqrt_lt_sqrt (by norm_num) (by norm_num)

lemma exp_3half_lt : Real.exp ((3 : ℝ) / 2) < 4.49 := by
  have hsq : Real.exp ((3 : ℝ) / 2) ^ 2 = Real.exp 1 ^ 3 := by
    rw [← Real.exp_nat_mul, ← Real.exp_nat_mul]
    norm_num
  have h3 : Real.exp 1 ^ 3 < 2.7182818286 ^ 3 :=
    pow_lt_pow_left Real.exp_one_lt_d9 (Real.exp_pos 1).le (by norm_num)
  have h4 : Real.exp ((3 : ℝ) / 2) ^ 2 < 4.49 ^ 2 := by
    rw [hsq]
    nlinarith [h3]
  exact lt_of_pow_lt_pow_left 2 (by norm_num) h4

lemma exp_sqrt2_lt : Real.exp (Real.sqrt 2) < 2 * Real.sqrt 2 + 2 := by
  have h1 : Real.exp (Real.sqrt 2) ≤ Real.exp ((3 : ℝ) / 2) :=
    Real.exp_le_exp.mpr sqrt2_le_32
  have h2 := exp_3half_lt
  have h3 := sqrt2_gt_d5
  linarith

lemma exp_neg_sqrt2_gt : 0.222 < Real.exp (-Real.sqrt 2) := by
  have h1 : Real.exp (-(3 : ℝ) / 2) ≤ Real.exp (-Real.sqrt 2) :=
    Real.exp_le_exp.mpr (by linarith [sqrt2_le_32])
  have h2 : Real.exp (-(3 : ℝ) / 2) = (Real.exp ((3 : ℝ) / 2))⁻¹ := by
    rw [← Real.exp_neg]
    norm_num
  have h3 : (4.49 : ℝ)⁻¹ < (Real.exp ((3 : ℝ) / 2))⁻¹ := by
    apply inv_lt_inv_of_lt (Real.exp_pos _) exp_3half_lt
  have h4 : (0.222 : ℝ) < (4.49 : ℝ)⁻¹ := by norm_num
  linarith [h2 ▸ h1]

lemma exp_neg_sqrt2_add_one_lt : Real.exp (-(Real.sqrt 2 + 1)) < 0.1354 := by
  have h0 : (2 : ℝ) ≤ Real.sqrt 2 + 1 := by linarith [sqrt2_gt_d5]
  have h1 : Real.exp (-(Real.sqrt 2 + 1)) ≤ Real.exp (-(2 : ℝ)) :=
    Real.exp_le_exp.mpr (by linarith)
  have h2 : Real.exp (-(2 : ℝ)) = (Real.exp 1 ^ 2)⁻¹ := by
    rw [← Real.exp_nat_mul, ← Real.exp_neg]
    norm_num
  have h3 : (7.389 : ℝ) < Real.exp 1 ^ 2 := by
    nlinarith [Real.exp_one_gt_d9]
  have h4 : (Real.exp 1 ^ 2)⁻¹ < (7.389 : ℝ)⁻¹ :=
    inv_lt_inv_of_lt (by norm_num) h3
  have h5 : ((7.389 : ℝ))⁻¹ < 0.1354 := by norm_num
  linarith [h2 ▸ h1]

lemma w0_gt_half : 1 / 2 < w0 := by
  rw [w0_eq]
  have hc : (0 : ℝ) < Real.sqrt 2 * Real.exp ((1 : ℝ) / 2) :=
    mul_pos sqrt2_pos (Real.exp_pos _)
  have hstep : Real.sqrt 2 * Real.exp ((1 : ℝ) / 2) *
      (Real.exp (-(1 / 2) - Real.sqrt 2) * (1 + t0)) ≤
      Real.sqrt 2 * Real.exp ((1 : ℝ) / 2) * I0 := by
    rw [mul_le_mul_left hc]
    exact I0_lower
  have hval : Real.sqrt 2 * Real.exp ((1 : ℝ) / 2) *
      (Real.exp (-(1 / 2) - Real.sqrt 2) * (1 + t0)) =
      (Real.sqrt 2 + 1) * Real.exp (-Real.sqrt 2) := by
    have hs : Real.exp ((1 : ℝ) / 2) * Real.exp (-(1 / 2) - Real.sqrt 2) =
        Real.exp (-Real.sqrt 2) := by
      rw [← Real.exp_add]
      ring_nf
    have ht := sqrt2_mul_t0
    linear_combination (Real.sqrt 2 + Real.sqrt 2 * t0) * hs +
      Real.exp (-Real.sqrt 2) * ht
  have hkey : 1 / 2 < (Real.sqrt 2 + 1) * Real.exp (-Real.sqrt 2) := by
    have hinv : Real.exp (Real.sqrt 2) * Real.exp (-Real.sqrt 2) = 1 := by
      rw [← Real.exp_add]
      simp
    nlinarith [exp_sqrt2_lt, Real.exp_pos (-Real.sqrt 2), sqrt2_pos]
  linarith [hval ▸ hstep]

lemma w0_lt_nine_tenths : w0 < 9 / 10 := by
  rw [w0_eq]
  have hc : (0 : ℝ) < Real.sqrt 2 * Real.exp ((1 : ℝ) / 2) :=
    mul_pos sqrt2_pos (Real.exp_pos _)
  have hstep : Real.sqrt 2 * Real.exp ((1 : ℝ) / 2) * I0 ≤
      Real.sqrt 2 * Real.exp ((1 : ℝ) / 2) *
        ((Real.exp (-(1 / 2)) - Real.exp (-(1 / 2) - Real.sqrt 2)) / Real.sqrt 2 +
          Real.exp (-(1 / 2) - (Real.sqrt 2 + 1)) / (Real.sqrt 2 + 1)) := by
    rw [mul_le_mul_left hc]
    exact I0_upper
  have hb1 : (0 : ℝ) < Real.sqrt 2 + 1 := by linarith [sqrt2_pos]
  have hval : Real.sqrt 2 * Real.exp ((1 : ℝ) / 2) *
      ((Real.exp (-(1 / 2)) - Real.exp (-(1 / 2) - Real.sqrt 2)) / Real.sqrt 2 +
        Real.exp (-(1 / 2) - (Real.sqrt 2 + 1)) / (Real.sqrt 2 + 1)) =
      (1 - Real.exp (-Real.sqrt 2)) +
        Real.sqrt 2 * Real.exp (-(Real.sqrt 2 + 1)) / (Real.sqrt 2 + 1) := by
    have hbx : Real.exp (-(1 / 2) - Real.sqrt 2) =
        Real.exp (-(1 / 2) : ℝ) * Real.exp (-Real.sqrt 2) := by
      rw [← Real.exp_add]
      ring_nf
    have hcx : Real.exp (-(1 / 2) - (Real.sqrt 2 + 1)) =
        Real.exp (-(1 / 2) : ℝ) * Real.exp (-(Real.sqrt 2 + 1)) := by
      rw [← Real.exp_add]
      ring_nf
    have hA1 : Real.exp (-(1 / 2) : ℝ) = (Real.exp ((1 : ℝ) / 2))⁻¹ := by
      rw [← Real.exp_neg]
    rw [hbx, hcx, hA1]
    have hE : Real.exp ((1 : ℝ) / 2) ≠ 0 := (Real.exp_pos _).ne'
    have hs2 : Real.sqrt 2 ≠ 0 := ne_of_gt sqrt2_pos
    have hb1' : Real.sqrt 2 + 1 ≠ 0 := ne_of_gt hb1
    field_simp
    ring
  have hterm2 : Real.sqrt 2 * Real.exp (-(Real.sqrt 2 + 1)) / (Real.sqrt 2 + 1) <
      0.08 := by
    rw [div_lt_iff hb1]
    nlinarith [exp_neg_sqrt2_add_one_lt, sqrt2_lt_d5, sqrt2_gt_d5,
      (Real.exp_pos (-(Real.sqrt 2 + 1))).le]
  have htotal : (1 - Real.exp (-Real.sqrt 2)) +
      Real.sqrt 2 * Real.exp (-(Real.sqrt 2 + 1)) / (Real.sqrt 2 + 1) < 9 / 10 := by
    have := exp_neg_sqrt2_gt
    linarith
  linarith [hval ▸ hstep]

lemma w0_pos : 0 < w0 := by linarith [w0_gt_half]

lemma w0_lt_one : w0 < 1 := by linarith [w0_lt_nine_tenths]

lemma gaussPdf_pos (x : ℝ) : 0 < gaussPdf x := by
  unfold gaussPdf
  positivity

lemma gaussPdf_even (x : ℝ) : gaussPdf (-x) = gaussPdf x := by
  unfold gaussPdf
  rw [neg_sq]

lemma erfcx_t0_pos : 0 < erfcx t0 := by
  unfold erfcx
  rw [show erfc t0 = 2 / Real.sqrt Real.pi * I0 from rfl]
  exact mul_pos (Real.exp_pos _)
    (mul_pos (by positivity) I0_pos)

lemma t0_inv : t0⁻¹ = Real.sqrt 2 := by
  unfold t0
  rw [inv_div]
  exact Real.div_sqrt

lemma normCdf_neg_one : normCdf (-1) = I0 / Real.sqrt Real.pi := by
  unfold normCdf
  have h1 : ∫ t in Iic (-1 : ℝ), gaussPdf t = ∫ t in Iic (-1 : ℝ), gaussPdf (-t) :=
    setIntegral_congr_fun measurableSet_Iic fun t _ => (gaussPdf_even t).symm
  rw [h1, integral_comp_neg_Iic]
  have h2 : ∀ x : ℝ, gaussPdf x =
      (Real.sqrt (2 * Real.pi))⁻¹ * Real.exp (-(t0 * x) ^ 2) := by
    intro x
    unfold gaussPdf
    rw [div_eq_mul_inv, mul_comm]
    congr 1
    rw [mul_pow, t0_sq]
    ring
  rw [neg_neg]
  rw [setIntegral_congr_fun measurableSet_Ioi fun x _ => h2 x,
    integral_mul_left]
  have h3 := integral_comp_mul_left_Ioi (fun y : ℝ => Real.exp (-y ^ 2)) 1 t0_pos
  simp only [mul_one] at h3
  rw [h3]
  rw [show (∫ x in Ioi t0, Real.exp (-x ^ 2)) = I0 from rfl]
  rw [smul_eq_mul, t0_inv, Real.sqrt_mul (by norm_num : (0 : ℝ) ≤ 2)]
  have hs2 : Real.sqrt 2 ≠ 0 := ne_of_gt sqrt2_pos
  have hπ : Real.sqrt Real.pi ≠ 0 := ne_of_gt sqrt_pi_pos
  field_simp
  ring

lemma normCdf_neg_one_w0 : normCdf (-1) = w0 * gaussPdf (-1) := by
  rw [normCdf_neg_one, w0_eq]
  unfold gaussPdf
  rw [show ((-1 : ℝ)) ^ 2 = 1 from by norm_num,
    Real.sqrt_mul (by norm_num : (0 : ℝ) ≤ 2)]
  have hE : Real.exp ((1 : ℝ) / 2) * Real.exp (-(1 : ℝ) / 2) = 1 := by
    rw [← Real.exp_add]
    norm_num
  have hs2 : Real.sqrt 2 ≠ 0 := ne_of_gt sqrt2_pos
  have hπ : Real.sqrt Real.pi ≠ 0 := ne_of_gt sqrt_pi_pos
  field_simp
  linear_combination (-(I0 * Real.sqrt 2 * Real.sqrt Real.pi)) * hE

lemma one_minus_w0_pos : 0 < 1 - w0 := by linarith [w0_lt_one]

lemma log_ei_upper_neg_one :
    log_ei_upper (-1) = normLogpdf (-1) + Real.log (1 - w0) := by
  unfold log_ei_upper normLogpdf
  rw [normCdf_neg_one_w0,
    show gaussPdf (-1) + (-1) * (w0 * gaussPdf (-1)) =
      gaussPdf (-1) * (1 - w0) from by ring,
    Real.log_mul (ne_of_gt (gaussPdf_pos _)) (ne_of_gt one_minus_w0_pos)]

lemma logw0_arg :
    Real.log (erfcx (negInvSqrt2 * (-1)) * |(-1 : ℝ)|) + logSqrtPiDiv2 =
      Real.log w0 := by
  rw [show negInvSqrt2 * (-1 : ℝ) = 1 / Real.sqrt 2 from by unfold negInvSqrt2; ring,
    inv_sqrt2_eq_t0, abs_neg, abs_one, mul_one]
  unfold logSqrtPiDiv2 w0
  rw [← Real.log_sqrt (le_of_lt (by positivity : (0 : ℝ) < Real.pi / 2)),
    ← Real.log_mul (ne_of_gt erfcx_t0_pos)
      (ne_of_gt (Real.sqrt_pos.mpr (by positivity)))]

lemma w0_log_branch : -log2c < Real.log w0 := by
  unfold log2c
  rw [show -Real.log 2 = Real.log 2⁻¹ from (Real.log_inv 2).symm]
  exact Real.log_lt_log (by norm_num) (by linarith [w0_gt_half])

lemma log_ei_eps_neg_one : log_ei_eps (-1) = Real.log ((1 - w0) / w0) := by
  unfold log_ei_eps log1mexp
  rw [logw0_arg, if_pos w0_log_branch]
  unfold expm1
  rw [Real.exp_neg, Real.exp_log w0_pos]
  have hw : w0 ≠ 0 := ne_of_gt w0_pos
  congr 1
  field_simp

lemma log_ei_neg_one :
    log_ei (-1) = normLogpdf (-1) + Real.log ((1 - w0) / w0) := by
  unfold log_ei
  norm_num
  exact log_ei_eps_neg_one

/-- Claim C4 (refuting theorem, supporting the code_bug verdict): at the
regime boundary `z = -1` the direct formula `log(pdf(z) + z * cdf(z))` and
the middle-regime expansion actually computed by `log_ei` differ by more
than `1/10` — far beyond floating tolerance — because the code's `log1mexp`
carries the negation inside `expm1`/`exp` instead of outside. -/
theorem C4_log_ei_discontinuous_at_boundary :
    log_ei_upper (-1) + 1 / 10 < log_ei (-1) := by
  rw [log_ei_upper_neg_one, log_ei_neg_one,
    Real.log_div (ne_of_gt one_minus_w0_pos) (ne_of_gt w0_pos)]
  have hlog : Real.log w0 < -(1 / 10) := by
    have h2 : (9 : ℝ) / 10 ≤ Real.exp (-(1 / 10)) := by
      have := Real.add_one_le_exp (-(1 / 10) : ℝ)
      linarith
    calc Real.log w0 < Real.log (Real.exp (-(1 / 10))) :=
          Real.log_lt_log w0_pos (by linarith [w0_lt_nine_tenths])
      _ = -(1 / 10) := Real.log_exp _
  linarith

/-- The function `g` of claim C1:
`g(z) = log(erfcx(-z/sqrt 2) * |z|) + log(sqrt(pi/2))`. -/
noncomputable def gC1 (z : ℝ) : ℝ :=
  Real.log (erfcx (-z / Real.sqrt 2) * |z|) + Real.log (Real.sqrt (Real.pi / 2))

lemma gC1_neg_one : gC1 (-1) = Real.log w0 := by
  unfold gC1
  rw [show -(-1 : ℝ) / Real.sqrt 2 = 1 / Real.sqrt 2 from by ring,
    inv_sqrt2_eq_t0, abs_neg, abs_one, mul_one]
  unfold w0
  rw [← Real.log_mul (ne_of_gt erfcx_t0_pos)
    (ne_of_gt (Real.sqrt_pos.mpr (by positivity)))]

/-- Counterexample to claim C1: at `z = -1` (inside the claimed middle
regime) the quantity `1 - exp(-g(z))` whose logarithm the claim's formula
takes is negative, so the claimed score `log phi(z) + log(1 - exp(-g(z)))`
is the logarithm of a negative number (NaN in the code's arithmetic), while
the code actually returns `log phi(z) + log(exp(-g(z)) - 1)`, the logarithm
of the positive mirror image. -/
theorem C1_spec_middle_formula_negative :
    1 - Real.exp (-gC1 (-1)) < 0 ∧
    0 < Real.exp (-gC1 (-1)) - 1 ∧
    log_ei (-1) = normLogpdf (-1) + Real.log (Real.exp (-gC1 (-1)) - 1) := by
  have hx : Real.exp (-gC1 (-1)) = w0⁻¹ := by
    rw [gC1_neg_one, ← Real.log_inv, Real.exp_log (inv_pos.mpr w0_pos)]
  have hgt : 1 < w0⁻¹ := by
    nlinarith [mul_pos (sub_pos.mpr w0_lt_one) (inv_pos.mpr w0_pos),
      mul_inv_cancel₀ (ne_of_gt w0_pos)]
  refine ⟨by rw [hx]; linarith, by rw [hx]; linarith, ?_⟩
  rw [log_ei_neg_one, hx]
  have hw : w0 ≠ 0 := ne_of_gt w0_pos
  congr 2
  field_simp

/-- The three-regime formula of claim C1 as amended: the middle-regime term
is `log(expm1(-g(z)))` (equivalently `log(exp(-g(z)) - 1)`) when
`g(z) > -log 2` and `log1p(exp(-g(z)))` otherwise — the helper's split
point is `-log 2`, and the subtrahend order inside the helper is
`exp(-g) - 1`, not `1 - exp(-g)`. -/
noncomputable def logEiSpecAmended (z : ℝ) : ℝ :=
  if -1 < z then Real.log (gaussPdf z + z * normCdf z)
  else if -1e6 < z then
    normLogpdf z +
      (if -Real.log 2 < gC1 z then Real.log (expm1 (-gC1 z))
       else log1p (Real.exp (-gC1 z)))
  else normLogpdf z - 2 * Real.log |z|

lemma log_ei_eps_arg_eq (z : ℝ) :
    Real.log (erfcx (negInvSqrt2 * z) * |z|) + logSqrtPiDiv2 = gC1 z := by
  unfold gC1 logSqrtPiDiv2
  rw [show negInvSqrt2 * z = -z / Real.sqrt 2 from by unfold negInvSqrt2; ring,
    Real.log_sqrt (le_of_lt (by positivity : (0 : ℝ) < Real.pi / 2))]

/-- Claim C1 as amended, proved: for every `z`, `log_ei z` equals the
three-regime formula with the corrected middle-regime term. -/
theorem C1_log_ei_three_regimes (z : ℝ) : log_ei z = logEiSpecAmended z := by
  unfold log_ei logEiSpecAmended
  by_cases h1 : (-1 : ℝ) < z
  · have hx : ¬ z < -1 := by linarith
    simp only [if_pos h1, if_neg hx]
    unfold log_ei_upper
    rfl
  · by_cases h2 : (-1e6 : ℝ) < z
    · have hx : ¬ z < -1e6 := by linarith
      simp only [if_neg h1, if_pos h2, if_neg hx]
      unfold log_ei_eps log1mexp log2c
      rw [log_ei_eps_arg_eq z]
    · simp only [if_neg h1, if_neg h2]
      unfold log_ei_lower
      ring

/-! ## Multi-restart optimizers (claim C5)

The implementations of `optimizers.batch` and `optimizers.sequential` are
not among the sources under verification — only their test is — so the
component is modelled from the specification (section 4.3): sample a pool
inside the bounds, score it with the acquisition, initialize restarts,
solve from each restart, and select the best.  A candidate set is a list of
`q` rows of `d` coordinates. -/

/-- A candidate set of shape `(q, d)`: `q` rows, each of length `d`. -/
def isShape (q d : ℕ) (c : List (List ℝ)) : Prop :=
  c.length = q ∧ ∀ r ∈ c, r.length = d

noncomputable section

/-- Index of a maximal score (argmax selection over the restart batch). -/
def argmaxIdx (scores : List ℝ) : ℕ :=
  (List.range scores.length).foldl
    (fun b j => if scores.getD b 0 < scores.getD j 0 then j else b) 0

/-- Modelled from the spec: the batch optimizer of section 4.3 — sample
`num_samples` candidate sets of shape `(q, d)` inside `bounds`, score them
with `acquisition`, pass `(key, pool, scores, num_restarts)` to the
initializer, run the solver from each restart, and return the single
restart of maximum refined score; `best_candidate` has shape `(q, d)` and
`best_score` is a scalar (an `ℝ`, shape `()`). -/
def batchOpt
    (sampler : PRNGKey → ℕ → ℕ → List (List (List ℝ)))
    (initializer : PRNGKey → List (List (List ℝ)) → List ℝ → ℕ →
      List (List (List ℝ)))
    (solver : (List (List ℝ) → ℝ) → List (ℝ × ℝ) → List (List (List ℝ)) →
      List (List (List ℝ)) × List ℝ)
    (key : PRNGKey) (acq : List (List ℝ) → ℝ) (bounds : List (ℝ × ℝ))
    (q ns nr : ℕ) : List (List ℝ) × ℝ :=
  let pool := sampler key ns q
  let scores := pool.map acq
  let restarts := initializer key pool scores nr
  let solved := solver acq bounds restarts
  (solved.1.getD (argmaxIdx solved.2) [], solved.2.getD (argmaxIdx solved.2) 0)

/-- Modelled from the spec: the sequential (greedy) optimizer of section
4.3 — run the batch procedure `q` times with an effective batch size of
`1`, threading the points fixed so far into the supplied conditional
acquisition, collecting one `(1, d)` point and one score per step;
`best_candidate` has shape `(q, d)` and `best_score` has shape `(q,)` (a
`List ℝ` of length `q`). -/
def seqOpt
    (sampler : PRNGKey → ℕ → ℕ → List (List (List ℝ)))
    (initializer : PRNGKey → List (List (List ℝ)) → List ℝ → ℕ →
      List (List (List ℝ)))
    (solver : (List (List ℝ) → ℝ) → List (ℝ × ℝ) → List (List (List ℝ)) →
      List (List (List ℝ)) × List ℝ)
    (key : PRNGKey) (acqSeq : List (List ℝ) → List (List ℝ) → ℝ)
    (bounds : List (ℝ × ℝ)) (q ns nr : ℕ) : List (List ℝ) × List ℝ :=
  (List.range q).foldl
    (fun st _ =>
      let step := batchOpt sampler initializer solver key (acqSeq st.1) bounds
        1 ns nr
      (st.1 ++ step.1, st.2 ++ [step.2]))
    ([], [])

end

lemma getD_mem_of_lt {α : Type*} (l : List α) (i : ℕ) (d : α)
    (h : i < l.length) : l.getD i d ∈ l := by
  rw [List.getD_eq_getElem?_getD, List.getElem?_eq_getElem h]
  exact List.getElem_mem h

lemma argmax_fold_lt (scores : List ℝ) (n : ℕ) :
    ∀ l : List ℕ, (∀ j ∈ l, j < n) → ∀ b, b < n →
      l.foldl (fun b j => if scores.getD b 0 < scores.getD j 0 then j else b)
        b < n := by
  intro l
  induction l with
  | nil =>
    intro _ b hb
    exact hb
  | cons a t ih =>
    intro hmem b hb
    simp only [List.foldl_cons]
    apply ih fun j hj => hmem j (by simp [hj])
    by_cases hc : scores.getD b 0 < scores.getD a 0
    · rw [if_pos hc]
      exact hmem a (by simp)
    · rw [if_neg hc]
      exact hb

lemma argmaxIdx_lt (scores : List ℝ) (h : scores ≠ []) :
    argmaxIdx scores < scores.length := by
  unfold argmaxIdx
  exact argmax_fold_lt scores scores.length (List.range scores.length)
    (fun j hj => List.mem_range.mp hj) 0 (List.length_pos.mpr h)

lemma batchOpt_shape
    (sampler : PRNGKey → ℕ → ℕ → List (List (List ℝ)))
    (initializer : PRNGKey → List (List (List ℝ)) → List ℝ → ℕ →
      List (List (List ℝ)))
    (solver : (List (List ℝ) → ℝ) → List (ℝ × ℝ) → List (List (List ℝ)) →
      List (List (List ℝ)) × List ℝ)
    (key : PRNGKey) (acq : List (List ℝ) → ℝ) (bounds : List (ℝ × ℝ))
    (q ns nr : ℕ)
    (hs : ∀ k n q', (sampler k n q').length = n ∧
      ∀ c ∈ sampler k n q', isShape q' bounds.length c)
    (hi : ∀ k pool scores n, pool ≠ [] →
      (initializer k pool scores n).length = n ∧
      ∀ c ∈ initializer k pool scores n, c ∈ pool)
    (hsol : ∀ f cs, (solver f bounds cs).1.length = cs.length ∧
      (solver f bounds cs).2.length = cs.length ∧
      ∀ q', (∀ c ∈ cs, isShape q' bounds.length c) →
        ∀ c ∈ (solver f bounds cs).1, isShape q' bounds.length c)
    (hns : 1 ≤ ns) (hnr : 1 ≤ nr) :
    isShape q bounds.length
      (batchOpt sampler initializer solver key acq bounds q ns nr).1 := by
  have hres : (batchOpt sampler initializer solver key acq bounds q ns nr).1 =
      (solver acq bounds
        (initializer key (sampler key ns q) ((sampler key ns q).map acq)
          nr)).1.getD
        (argmaxIdx (solver acq bounds
          (initializer key (sampler key ns q) ((sampler key ns q).map acq)
            nr)).2) [] := rfl
  rw [hres]
  set pool := sampler key ns q with hpool
  set restarts := initializer key pool (pool.map acq) nr with hrestarts
  set solved := solver acq bounds restarts with hsolved
  have hplen : pool.length = ns := (hs key ns q).1
  have hpne : pool ≠ [] := by
    intro h0
    rw [h0] at hplen
    simp at hplen
    omega
  have hrlen : restarts.length = nr := (hi key pool (pool.map acq) nr hpne).1
  have hrshape : ∀ c ∈ restarts, isShape q bounds.length c := fun c hc =>
    (hs key ns q).2 c ((hi key pool (pool.map acq) nr hpne).2 c hc)
  have hs1len : solved.1.length = nr := by
    rw [(hsol acq restarts).1, hrlen]
  have hs2len : solved.2.length = nr := by
    rw [(hsol acq restarts).2.1, hrlen]
  have hs2ne : solved.2 ≠ [] := by
    intro h0
    rw [h0] at hs2len
    simp at hs2len
    omega
  have hidx : argmaxIdx solved.2 < solved.1.length := by
    have := argmaxIdx_lt solved.2 hs2ne
    omega
  exact (hsol acq restarts).2.2 q hrshape _ (getD_mem_of_lt _ _ _ hidx)

lemma seqOpt_shape
    (sampler : PRNGKey → ℕ → ℕ → List (List (List ℝ)))
    (initializer : PRNGKey → List (List (List ℝ)) → List ℝ → ℕ →
      List (List (List ℝ)))
    (solver : (List (List ℝ) → ℝ) → List (ℝ × ℝ) → List (List (List ℝ)) →
      List (List (List ℝ)) × List ℝ)
    (key : PRNGKey) (acqSeq : List (List ℝ) → List (List ℝ) → ℝ)
    (bounds : List (ℝ × ℝ)) (ns nr : ℕ)
    (hs : ∀ k n q', (sampler k n q').length = n ∧
      ∀ c ∈ sampler k n q', isShape q' bounds.length c)
    (hi : ∀ k pool scores n, pool ≠ [] →
      (initializer k pool scores n).length = n ∧
      ∀ c ∈ initializer k pool scores n, c ∈ pool)
    (hsol : ∀ f cs, (solver f bounds cs).1.length = cs.length ∧
      (solver f bounds cs).2.length = cs.length ∧
      ∀ q', (∀ c ∈ cs, isShape q' bounds.length c) →
        ∀ c ∈ (solver f bounds cs).1, isShape q' bounds.length c)
    (hns : 1 ≤ ns) (hnr : 1 ≤ nr) :
    ∀ q : ℕ,
      isShape q bounds.length
        (seqOpt sampler initializer solver key acqSeq bounds q ns nr).1 ∧
      (seqOpt sampler initializer solver key acqSeq bounds q ns nr).2.length =
        q := by
  intro q
  induction q with
  | zero =>
    refine ⟨⟨rfl, ?_⟩, rfl⟩
    intro r hr
    simp [seqOpt] at hr
  | succ n ih =>
    have hstepdef :
        seqOpt sampler initializer solver key acqSeq bounds (n + 1) ns nr =
        (let st := seqOpt sampler initializer solver key acqSeq bounds n ns nr
         let step := batchOpt sampler initializer solver key (acqSeq st.1)
           bounds 1 ns nr
         (st.1 ++ step.1, st.2 ++ [step.2])) := by
      unfold seqOpt
      rw [List.range_succ, List.foldl_append]
      rfl
    rw [hstepdef]
    obtain ⟨⟨hlen1, hrows1⟩, hlen2⟩ := ih
    have hbatch := batchOpt_shape sampler initializer solver key
      (acqSeq (seqOpt sampler initializer solver key acqSeq bounds n ns
        nr).1) bounds 1 ns nr hs hi hsol hns hnr
    obtain ⟨hblen, hbrows⟩ := hbatch
    refine ⟨⟨?_, ?_⟩, ?_⟩
    · simp only [List.length_append, hlen1, hblen]
    · intro r hr
      simp only [List.mem_append] at hr
      rcases hr with hr | hr
      · exact hrows1 r hr
      · exact hbrows r hr
    · simp only [List.length_append, hlen2, List.length_cons, List.length_nil]

/-- Claim C5: under the spec's collaborator contracts (sampler returns
`num_samples` candidate sets of shape `(q, d)` with `d = bounds.length`;
initializer returns `num_restarts` rows drawn from the pool; solver
preserves count and shape), the batch optimizer returns a `best_candidate`
of shape `(q, d)` with a scalar `best_score` (an `ℝ`, shape `()`), while
the sequential optimizer returns a `best_candidate` of shape `(q, d)` and a
`best_score` vector of length `q` — the test-visible shape asymmetry. -/
theorem C5_optimizer_output_shapes
    (sampler : PRNGKey → ℕ → ℕ → List (List (List ℝ)))
    (initializer : PRNGKey → List (List (List ℝ)) → List ℝ → ℕ →
      List (List (List ℝ)))
    (solver : (List (List ℝ) → ℝ) → List (ℝ × ℝ) → List (List (List ℝ)) →
      List (List (List ℝ)) × List ℝ)
    (key : PRNGKey) (acq : List (List ℝ) → ℝ)
    (acqSeq : List (List ℝ) → List (List ℝ) → ℝ)
    (bounds : List (ℝ × ℝ)) (q ns nr : ℕ)
    (hs : ∀ k n q', (sampler k n q').length = n ∧
      ∀ c ∈ sampler k n q', isShape q' bounds.length c)
    (hi : ∀ k pool scores n, pool ≠ [] →
      (initializer k pool scores n).length = n ∧
      ∀ c ∈ initializer k pool scores n, c ∈ pool)
    (hsol : ∀ f cs, (solver f bounds cs).1.length = cs.length ∧
      (solver f bounds cs).2.length = cs.length ∧
      ∀ q', (∀ c ∈ cs, isShape q' bounds.length c) →
        ∀ c ∈ (solver f bounds cs).1, isShape q' bounds.length c)
    (hns : 1 ≤ ns) (hnr : 1 ≤ nr) :
    isShape q bounds.length
      (batchOpt sampler initializer solver key acq bounds q ns nr).1 ∧
    isShape q bounds.length
      (seqOpt sampler initializer solver key acqSeq bounds q ns nr).1 ∧
    (seqOpt sampler initializer solver key acqSeq bounds q ns nr).2.length =
      q :=
  ⟨batchOpt_shape sampler initializer solver key acq bounds q ns nr hs hi
      hsol hns hnr,
    (seqOpt_shape sampler initializer solver key acqSeq bounds ns nr hs hi
      hsol hns hnr q).1,
    (seqOpt_shape sampler initializer solver key acqSeq bounds ns nr hs hi
      hsol hns hnr q).2⟩

/-- Concrete sampler for the witness: `n` copies of the zero candidate set
of shape `(q', 1)`. -/
noncomputable def constSampler : PRNGKey → ℕ → ℕ → List (List (List ℝ)) :=
  fun _ n q' => List.replicate n (List.replicate q' [0])

/-- Concrete initializer for the witness: `n` copies of the pool head. -/
noncomputable def headInitializer :
    PRNGKey → List (List (List ℝ)) → List ℝ → ℕ → List (List (List ℝ)) :=
  fun _ pool _ n =>
    match pool with
    | [] => []
    | c :: _ => List.replicate n c

/-- Concrete solver for the witness: return the restarts unchanged with
their acquisition values. -/
noncomputable def idSolver :
    (List (List ℝ) → ℝ) → List (ℝ × ℝ) → List (List (List ℝ)) →
      List (List (List ℝ)) × List ℝ :=
  fun f _ cs => (cs, cs.map f)

/-- Constant-zero acquisition for the witness. -/
noncomputable def zeroAcq : List (List ℝ) → ℝ := fun _ => 0

/-- Constant-zero conditional acquisition for the witness. -/
noncomputable def zeroAcqSeq : List (List ℝ) → List (List ℝ) → ℝ :=
  fun _ _ => 0

/-- The test's bounds `[[-1, 1]]` (dimension `d = 1`). -/
noncomputable def testBounds : List (ℝ × ℝ) := [(-1, 1)]

/-- Witness for C5 at the test's parameters `bounds = [[-1, 1]]`, `q = 3`,
`num_samples = 100`, `num_restarts = 10`: shapes `(3, 1)` and `()` for
batch, `(3, 1)` and `(3,)` for sequential. -/
theorem C5_optimizer_output_shapes_witness :
    isShape 3 testBounds.length
      (batchOpt constSampler headInitializer idSolver zeroKey zeroAcq
        testBounds 3 100 10).1 ∧
    isShape 3 testBounds.length
      (seqOpt constSampler headInitializer idSolver zeroKey zeroAcqSeq
        testBounds 3 100 10).1 ∧
    (seqOpt constSampler headInitializer idSolver zeroKey zeroAcqSeq
      testBounds 3 100 10).2.length = 3 := by
  refine C5_optimizer_output_shapes constSampler headInitializer idSolver
    zeroKey zeroAcq zeroAcqSeq testBounds 3 100 10 ?_ ?_ ?_ (by norm_num)
    (by norm_num)
  · intro k n q'
    constructor
    · simp [constSampler]
    · intro c hc
      rw [show constSampler k n q' = List.replicate n (List.replicate q' [0])
        from rfl, List.mem_replicate] at hc
      obtain ⟨-, rfl⟩ := hc
      constructor
      · simp
      · intro r hr
        rw [List.mem_replicate] at hr
        obtain ⟨-, rfl⟩ := hr
        simp [testBounds]
  · intro k pool scores n hne
    cases pool with
    | nil => exact absurd rfl hne
    | cons c t =>
      constructor
      · simp [headInitializer]
      · intro c2 hc2
        have : c2 = c := by
          simpa using (List.mem_replicate.mp (by simpa [headInitializer]
            using hc2)).2
        rw [this]
        exact List.mem_cons_self c t
  · intro f cs
    refine ⟨rfl, by simp [idSolver], ?_⟩
    intro q' hshape c hc
    exact hshape c hc
